import Mathlib

/-!
Verification development for the goker-ledger timeline / PnL pipeline.

Shallow embedding of `src/services/timeline.rs` and
`src/services/pnl_calculator.rs`:

* `serde_json::Value` is modelled by `Json` (integer-valued numbers only;
  the fields the pipeline inspects are integers and strings).
* `BigDecimal` is modelled by `Rat`: the crate's values are exact decimals,
  its `PartialEq` compares numeric values, and addition/subtraction/negation
  are exact, so the value semantics embeds homomorphically into `ℚ`.
* `DateTime<Utc>` is modelled by its millisecond timestamp (`Int`).
  `DateTime::from_timestamp_millis` succeeds exactly on the chrono-represent-
  able range; the bounds below are the epoch milliseconds of chrono's
  `NaiveDate::MIN` (`-262144-01-01T00:00:00Z`) and
  `NaiveDate::MAX` end of day (`+262143-12-31T23:59:59.999Z`).
* Rust's stable `sort_by` is modelled by `List.insertionSort`, which is a
  stable sorting algorithm, hence extensionally equal to it.
* `HashMap` accumulators are modelled by association lists kept in insertion
  order; every property proved about them is order-insensitive (lookups and
  commutative sums), matching the unspecified iteration order of `HashMap`.
* `Utc::now()` is impure; the two potential clock readings made by
  `calculate_summary` are passed as explicit arguments.
-/

namespace GokerLedger

/-! ## JSON value model (serde_json::Value) -/

inductive Json where
  | null : Json
  | bool (b : Bool) : Json
  | num (n : Int) : Json
  | str (s : String) : Json
  | arr (elems : List Json) : Json
  | obj (fields : List (String × Json)) : Json

/-- `Value::get(key)` on an object: first binding of the key (keys are unique
in maps produced by serde_json). -/
def Json.get : Json → String → Option Json
  | .obj fields, key => go fields key
  | _, _ => none
where go : List (String × Json) → String → Option Json
  | [], _ => none
  | (k, v) :: rest, key => if k = key then some v else go rest key

/-- `Value::as_i64`: an integer-valued number representable in `i64`. -/
def Json.as_i64 : Json → Option Int
  | .num n => if -(2 ^ 63) ≤ n ∧ n < 2 ^ 63 then some n else none
  | _ => none

/-- `Value::as_str`. -/
def Json.as_str : Json → Option String
  | .str s => some s
  | _ => none

/-- `Value::as_array`. -/
def Json.as_array : Json → Option (List Json)
  | .arr elems => some elems
  | _ => none

/-! ## BigDecimal parsing (`BigDecimal::from_str`)

The crate splits the input at the first `e`/`E`; the exponent is a signed
machine integer; the mantissa is an optional sign followed by digits with at
most one decimal point (at least one digit in total). -/

def digitsToNat (cs : List Char) : Nat :=
  cs.foldl (fun acc c => acc * 10 + (c.toNat - 48)) 0

def parseDigits (cs : List Char) : Option Nat :=
  if cs ≠ [] ∧ cs.all Char.isDigit then some (digitsToNat cs) else none

/-- Split an optional leading sign; returns (negative?, rest). -/
def splitSign : List Char → Bool × List Char
  | '-' :: rest => (true, rest)
  | '+' :: rest => (false, rest)
  | cs => (false, cs)

/-- Mantissa: optional sign, digits with at most one `.`, at least one digit.
Returns the signed integer of all digits and the number of fractional
digits. -/
def parseMantissa (cs : List Char) : Option (Int × Nat) :=
  let (neg, body) := splitSign cs
  match body.splitOn '.' with
  | [intPart] =>
      (parseDigits intPart).map fun n => (if neg then -(n : Int) else (n : Int), 0)
  | [intPart, fracPart] =>
      if (intPart ++ fracPart) ≠ [] ∧ (intPart ++ fracPart).all Char.isDigit then
        some (if neg then -(digitsToNat (intPart ++ fracPart) : Int)
              else (digitsToNat (intPart ++ fracPart) : Int), fracPart.length)
      else none
  | _ => none

/-- Signed machine-integer exponent (`i64::from_str`). -/
def parseExponent (cs : List Char) : Option Int :=
  let (neg, body) := splitSign cs
  (parseDigits body).bind fun n =>
    let v : Int := if neg then -(n : Int) else (n : Int)
    if -(2 ^ 63) ≤ v ∧ v < 2 ^ 63 then some v else none

/-- Numeric value of a decimal with integer mantissa `m` and scale `s`
(value `m * 10 ^ (-s)`). -/
def decValue (m : Int) (s : Int) : Rat :=
  if 0 ≤ s then (m : Rat) / ((10 : Rat) ^ s.toNat)
  else (m : Rat) * ((10 : Rat) ^ (-s).toNat)

/-- `BigDecimal::from_str`, as a numeric value. -/
def parseDecimal (s : String) : Option Rat :=
  match s.toList.splitOnP (fun c => c = 'e' || c = 'E') with
  | [mant] => (parseMantissa mant).map fun p => decValue p.1 p.2
  | [mant, expo] =>
      (parseMantissa mant).bind fun p =>
        (parseExponent expo).map fun e => decValue p.1 ((p.2 : Int) - e)
  | _ => none

/-! ## Timestamps (chrono) -/

/-- Epoch milliseconds of chrono's `NaiveDate::MIN` at midnight. -/
def chronoMinMillis : Int := -8334632851200000

/-- Epoch milliseconds of the last representable chrono instant (millisecond
resolution). -/
def chronoMaxMillis : Int := 8210298412799999

/-- `DateTime::from_timestamp_millis`: succeeds iff the instant is
representable. A `DateTime<Utc>` is modelled by its epoch milliseconds. -/
def from_timestamp_millis (ms : Int) : Option Int :=
  if chronoMinMillis ≤ ms ∧ ms ≤ chronoMaxMillis then some ms else none

/-! ## Timeline data model (`timeline.rs`) -/

inductive TimelineEvent where
  | fill (timestamp : Int) (coin : String) (side : String) (size : Rat)
      (price : Rat) (fee : Rat) (realized_pnl : Option Rat)
      (tx_hash : Option String)
  | funding (timestamp : Int) (coin : String) (amount : Rat)
      (funding_rate : Rat)
  | liquidation (timestamp : Int) (coin : String) (size : Rat) (price : Rat)
      (loss : Rat)
  | deposit (timestamp : Int) (amount : Rat) (token : String)
  | withdrawal (timestamp : Int) (amount : Rat) (token : String)
deriving DecidableEq

/-- `TimelineEvent::timestamp()`. -/
def TimelineEvent.timestamp : TimelineEvent → Int
  | .fill ts _ _ _ _ _ _ _ => ts
  | .funding ts _ _ _ => ts
  | .liquidation ts _ _ _ _ => ts
  | .deposit ts _ _ => ts
  | .withdrawal ts _ _ => ts

structure Timeline where
  wallet : String
  events : List TimelineEvent
  from_timestamp : Option Int
  to_timestamp : Option Int
deriving DecidableEq

/-- The error type of `error.rs`; payloads modelled as strings. -/
inductive AppError where
  | notFound (msg : String)
  | validationError (msg : String)
  | externalApiError (msg : String)
  | requestError (msg : String)
  | serializationError (msg : String)
  | internalError (msg : String)
deriving DecidableEq

/-! ## Event normalizer (`TimelineService::parse_fill` / `parse_funding`) -/

/-- `TimelineService::parse_fill`. -/
def parse_fill (fill : Json) : Option TimelineEvent :=
  match ((fill.get "time").bind Json.as_i64).map
      (fun ts => (from_timestamp_millis ts).getD 0) with
  | none => none
  | some timestamp =>
    match (fill.get "coin").bind Json.as_str with
    | none => none
    | some coin =>
      match (fill.get "side").bind Json.as_str with
      | none => none
      | some side =>
        match ((fill.get "sz").bind Json.as_str).bind parseDecimal with
        | none => none
        | some size =>
          match ((fill.get "px").bind Json.as_str).bind parseDecimal with
          | none => none
          | some price =>
            let fee := (((fill.get "fee").bind Json.as_str).bind parseDecimal).getD 0
            let realized_pnl := ((fill.get "closedPnl").bind Json.as_str).bind parseDecimal
            let tx_hash := (fill.get "hash").bind Json.as_str
            some (.fill timestamp coin side size price fee realized_pnl tx_hash)

/-- `TimelineService::parse_funding`. -/
def parse_funding (payment : Json) : Option TimelineEvent :=
  match ((payment.get "time").bind Json.as_i64).map
      (fun ts => (from_timestamp_millis ts).getD 0) with
  | none => none
  | some timestamp =>
    match (payment.get "coin").bind Json.as_str with
    | none => none
    | some coin =>
      match ((payment.get "usdc").bind Json.as_str).bind parseDecimal with
      | none => none
      | some amount =>
        let funding_rate :=
          (((payment.get "fundingRate").bind Json.as_str).bind parseDecimal).getD 0
        some (.funding timestamp coin amount funding_rate)

/-! ## Sorting by a key (Rust's stable `sort_by`) -/

/-- Comparison by a key into a linear order. -/
def keyLe {α κ : Type} [LinearOrder κ] (key : α → κ) (a b : α) : Prop :=
  key a ≤ key b

instance {α κ : Type} [LinearOrder κ] (key : α → κ) : DecidableRel (keyLe key) :=
  fun a b => inferInstanceAs (Decidable (key a ≤ key b))

instance {α κ : Type} [LinearOrder κ] (key : α → κ) : IsTotal α (keyLe key) :=
  ⟨fun a b => le_total (key a) (key b)⟩

instance {α κ : Type} [LinearOrder κ] (key : α → κ) : IsTrans α (keyLe key) :=
  ⟨fun _ _ _ h1 h2 => le_trans h1 h2⟩

/-- `TimelineService::build_timeline`: normalize fills then funding, sort by
timestamp (stable). -/
def build_timeline (wallet : String) (fills : List Json)
    (funding : List Json) : Timeline :=
  let events := List.insertionSort (keyLe TimelineEvent.timestamp)
    (fills.filterMap parse_fill ++ funding.filterMap parse_funding)
  { wallet := wallet
    events := events
    from_timestamp := events.head?.map TimelineEvent.timestamp
    to_timestamp := events.getLast?.map TimelineEvent.timestamp }

/-- `build_timeline` as seen through its `AppResult` signature: the body only
ever returns `Ok`. -/
def build_timelineR (wallet : String) (fills : List Json)
    (funding : List Json) : Except AppError Timeline :=
  .ok (build_timeline wallet fills funding)

/-! ## PnL data model (`pnl_calculator.rs`) -/

structure AssetPnl where
  coin : String
  realized_pnl : Rat
  funding_pnl : Rat
  fees : Rat
  net_pnl : Rat
  trade_count : Nat
deriving DecidableEq

structure PnlSummary where
  wallet : String
  period_start : Int
  period_end : Int
  realized_pnl : Rat
  unrealized_pnl : Rat
  total_pnl : Rat
  funding_pnl : Rat
  trading_fees : Rat
  net_pnl : Rat
  by_asset : List (String × AssetPnl)
deriving DecidableEq

structure DailyPnl where
  date : String
  pnl : Rat
  cumulative_pnl : Rat
deriving DecidableEq

/-- The zero entry inserted by `or_insert_with` in `calculate_summary`. -/
def newAssetPnl (coin : String) : AssetPnl :=
  { coin := coin, realized_pnl := 0, funding_pnl := 0, fees := 0
    net_pnl := 0, trade_count := 0 }

/-- `by_asset.entry(coin).or_insert_with(new).(mutation f)` on the
association-list model of the `HashMap` (insertion order kept). -/
def updateAsset (m : List (String × AssetPnl)) (coin : String)
    (f : AssetPnl → AssetPnl) : List (String × AssetPnl) :=
  match m with
  | [] => [(coin, f (newAssetPnl coin))]
  | (k, v) :: rest =>
      if k = coin then (k, f v) :: rest else (k, v) :: updateAsset rest coin f

/-- Running accumulator of the event loop in `calculate_summary`. -/
structure SummaryAcc where
  realized_pnl : Rat
  funding_pnl : Rat
  trading_fees : Rat
  by_asset : List (String × AssetPnl)

/-- The mutation the `Fill` arm applies to a by-asset entry: add the fee,
bump the trade count (`u32`, wrapping at `2 ^ 32`), and add the realized
PnL when present. -/
def applyFillAsset (fee : Rat) (rpnl : Option Rat) (a0 : AssetPnl) : AssetPnl :=
  let a1 := { a0 with fees := a0.fees + fee
                      trade_count := (a0.trade_count + 1) % 2 ^ 32 }
  match rpnl with
  | some pnl => { a1 with realized_pnl := a1.realized_pnl + pnl }
  | none => a1

/-- The mutation the `Funding` arm applies to a by-asset entry. -/
def applyFundingAsset (amount : Rat) (a0 : AssetPnl) : AssetPnl :=
  { a0 with funding_pnl := a0.funding_pnl + amount }

/-- One iteration of the event loop in `calculate_summary`. -/
def summaryStep (acc : SummaryAcc) (e : TimelineEvent) : SummaryAcc :=
  match e with
  | .fill _ coin _ _ _ fee rpnl _ =>
      { realized_pnl :=
          match rpnl with
          | some pnl => acc.realized_pnl + pnl
          | none => acc.realized_pnl
        funding_pnl := acc.funding_pnl
        trading_fees := acc.trading_fees + fee
        by_asset := updateAsset acc.by_asset coin (applyFillAsset fee rpnl) }
  | .funding _ coin amount _ =>
      { acc with
        funding_pnl := acc.funding_pnl + amount
        by_asset := updateAsset acc.by_asset coin (applyFundingAsset amount) }
  | _ => acc

/-- The `net_pnl` pass over `by_asset.values_mut()`. -/
def finalizeAsset (a : AssetPnl) : AssetPnl :=
  { a with net_pnl := a.realized_pnl + a.funding_pnl - a.fees }

/-- `PnlCalculator::calculate_summary`. `now1`/`now2` are the values the two
potential `Utc::now()` readings would return (epoch milliseconds). -/
def calculate_summary (wallet : String) (timeline : Timeline)
    (unrealized_pnl : Rat) (now1 now2 : Int) : PnlSummary :=
  let acc := timeline.events.foldl summaryStep
    { realized_pnl := 0, funding_pnl := 0, trading_fees := 0, by_asset := [] }
  let by_asset := acc.by_asset.map fun p => (p.1, finalizeAsset p.2)
  let total_pnl := acc.realized_pnl + unrealized_pnl
  let net_pnl := total_pnl + acc.funding_pnl - acc.trading_fees
  { wallet := wallet
    period_start := timeline.from_timestamp.getD now1
    period_end := timeline.to_timestamp.getD now2
    realized_pnl := acc.realized_pnl
    unrealized_pnl := unrealized_pnl
    total_pnl := total_pnl
    funding_pnl := acc.funding_pnl
    trading_fees := acc.trading_fees
    net_pnl := net_pnl
    by_asset := by_asset }

/-! ## Calendar dates (chrono's `format("%Y-%m-%d")`) -/

/-- Proleptic Gregorian civil date from days since the epoch (the standard
era-based algorithm; chrono computes the same calendar). -/
def civilFromDays (z0 : Int) : Int × Int × Int :=
  let z := z0 + 719468
  let era := Int.ediv z 146097
  let doe := z - era * 146097
  let yoe := Int.ediv
    (doe - Int.ediv doe 1460 + Int.ediv doe 36524 - Int.ediv doe 146096) 365
  let y := yoe + era * 400
  let doy := doe - (365 * yoe + Int.ediv yoe 4 - Int.ediv yoe 100)
  let mp := Int.ediv (5 * doy + 2) 153
  let d := doy - Int.ediv (153 * mp + 2) 5 + 1
  let m := mp + (if mp < 10 then 3 else -9)
  (y + (if m ≤ 2 then 1 else 0), m, d)

def padZeros (width : Nat) (s : String) : String :=
  if s.length < width then String.mk (List.replicate (width - s.length) '0') ++ s
  else s

/-- chrono's `%Y`: zero-padded to 4 digits, explicit sign outside
`0000..=9999`. -/
def formatYear (y : Int) : String :=
  if y < 0 then "-" ++ padZeros 4 (toString (-y).toNat)
  else if y ≤ 9999 then padZeros 4 (toString y.toNat)
  else "+" ++ toString y.toNat

def pad2 (n : Int) : String :=
  if 0 ≤ n ∧ n < 10 then "0" ++ toString n.toNat else toString n.toNat

/-- `event.timestamp().format("%Y-%m-%d")`: the UTC calendar date of an
event's timestamp. -/
def dateOf (e : TimelineEvent) : String :=
  let days := Int.ediv e.timestamp 86400000
  let c := civilFromDays days
  formatYear c.1 ++ "-" ++ pad2 c.2.1 ++ "-" ++ pad2 c.2.2

/-! ## Daily PnL (`PnlCalculator::calculate_daily`) -/

/-- The per-event contribution of the `match` in `calculate_daily`. -/
def dailyContribution (e : TimelineEvent) : Rat :=
  match e with
  | .fill _ _ _ _ _ fee rpnl _ => rpnl.getD 0 - fee
  | .funding _ _ amount _ => amount
  | .liquidation _ _ _ _ loss => -loss
  | _ => 0

/-- `daily_map.entry(date).or_insert(0); *entry += pnl` on the association
list model. -/
def updateDaily (m : List (String × Rat)) (date : String) (v : Rat) :
    List (String × Rat) :=
  match m with
  | [] => [(date, 0 + v)]
  | (k, x) :: rest =>
      if k = date then (k, x + v) :: rest else (k, x) :: updateDaily rest date v

def dailyStep (m : List (String × Rat)) (e : TimelineEvent) :
    List (String × Rat) :=
  updateDaily m (dateOf e) (dailyContribution e)

def dailyMapOf (events : List TimelineEvent) : List (String × Rat) :=
  events.foldl dailyStep []

/-- The cumulative-PnL pass of `calculate_daily`. -/
def addCumulative (c : Rat) : List DailyPnl → List DailyPnl
  | [] => []
  | d :: rest =>
      { d with cumulative_pnl := c + d.pnl } :: addCumulative (c + d.pnl) rest

/-- Executable lexicographic comparison on character lists; agrees with the
`≤` of `List Char` (and hence of `String`), see `charsLe_iff`. -/
def charsLe : List Char → List Char → Bool
  | [], _ => true
  | _ :: _, [] => false
  | a :: as, b :: bs =>
      if a < b then true else if b < a then false else charsLe as bs

theorem charsLe_iff : ∀ x y : List Char, charsLe x y = true ↔ ¬ List.lt y x
  | [], y => by
      constructor
      · intro _ h
        cases h
      · intro _
        rfl
  | a :: as, [] => by
      constructor
      · intro h
        cases h
      · intro h
        exact absurd (List.lt.nil a as) h
  | a :: as, b :: bs => by
      by_cases hab : a < b
      · have hnlt : ¬ List.lt (b :: bs) (a :: as) := by
          intro h
          cases h with
          | head bs2 as2 h => exact absurd hab (asymm h)
          | tail h1 h2 _ => exact h2 hab
        simp [charsLe, hab, hnlt]
      · by_cases hba : b < a
        · have hlt : List.lt (b :: bs) (a :: as) := List.lt.head _ _ hba
          simp only [charsLe, if_neg hab, if_pos hba]
          constructor
          · intro h
            exact absurd h Bool.false_ne_true
          · intro h
            exact absurd hlt h
        · have ih : charsLe as bs = true ↔ ¬ List.lt bs as := charsLe_iff as bs
          simp only [charsLe, if_neg hab, if_neg hba]
          rw [ih]
          constructor
          · intro h hlt
            cases hlt with
            | head bs2 as2 h1 => exact hba h1
            | tail h1 h2 h3 => exact h h3
          · intro h hlt
            exact h (List.lt.tail hba hab hlt)

/-- The `≤` of `String` does not reduce in the kernel; this equivalent
instance does, so that concrete runs of `calculate_daily` can be evaluated. -/
instance : DecidableRel (keyLe DailyPnl.date) := fun a b =>
  decidable_of_iff (charsLe a.date.toList b.date.toList = true)
    (by
      rw [charsLe_iff]
      show _ ↔ a.date ≤ b.date
      rw [String.le_iff_toList_le, ← not_lt]
      exact not_congr (List.lt_iff_lex_lt _ _))

/-- `PnlCalculator::calculate_daily`. -/
def calculate_daily (timeline : Timeline) : List DailyPnl :=
  let daily := (dailyMapOf timeline.events).map fun p =>
    { date := p.1, pnl := p.2, cumulative_pnl := (0 : Rat) }
  addCumulative 0 (List.insertionSort (keyLe DailyPnl.date) daily)

/-! ## Unrealized PnL (`PnlCalculator::calculate_unrealized_from_state`) -/

/-- `PnlCalculator::calculate_unrealized_from_state`. -/
def calculate_unrealized_from_state (user_state : Json) : Rat :=
  match (user_state.get "assetPositions").bind Json.as_array with
  | some positions =>
      (positions.filterMap fun p =>
          (((p.get "position").bind fun pos => pos.get "unrealizedPnl").bind
            Json.as_str).bind parseDecimal).foldl
        (fun acc pnl => acc + pnl) 0
  | none => 0

/-! ## Shared fixtures for concrete evaluations -/

/-- A concrete timeline: two BTC fills around one funding payment (the
scenario of the spec, section 8). -/
def tlW : Timeline :=
  { wallet := "w"
    events := [.fill 1000 "BTC" "buy" 1 50000 5 none none,
               .funding 1500 "BTC" (-(5 / 2)) (1 / 10000),
               .fill 2000 "BTC" "sell" 1 51000 5 (some 1000) none]
    from_timestamp := some 1000
    to_timestamp := some 2000 }

/-- A timeline with no events. -/
def emptyTimeline : Timeline :=
  { wallet := "w", events := [], from_timestamp := none, to_timestamp := none }

/-! ## Claim C9 -/

/-- Claim C9: `build_timeline` is total: for every wallet and every pair of
lists of raw JSON values it returns `Ok` with a timeline, never an error,
and malformed records only reduce the number of events. The aggregation
functions (`calculate_summary`, `calculate_daily`,
`calculate_unrealized_from_state`) are total Lean functions by
construction. -/
theorem C9_build_timeline_total (wallet : String) (fills funding : List Json) :
    build_timelineR wallet fills funding
      = Except.ok (build_timeline wallet fills funding)
    ∧ (build_timeline wallet fills funding).events.length
      ≤ fills.length + funding.length := by
  refine ⟨rfl, ?_⟩
  show (List.insertionSort _ _).length ≤ _
  rw [List.length_insertionSort, List.length_append]
  exact Nat.add_le_add (List.length_filterMap_le _ _) (List.length_filterMap_le _ _)

/-! ## Claim C7 -/

theorem foldl_add_filterMap (f : Json → Option Rat) :
    ∀ (ps : List Json) (c : Rat),
      (ps.filterMap f).foldl (fun acc pnl => acc + pnl) c
        = c + (ps.map fun p => (f p).getD 0).sum := by
  intro ps
  induction ps with
  | nil => intro c; simp
  | cons p ps ih =>
      intro c
      cases hf : f p with
      | none => simp [List.filterMap_cons, hf, ih]
      | some v => simp [List.filterMap_cons, hf, ih, add_assoc]

/-- Claim C7: `calculate_unrealized_from_state` returns the exact sum, over
the positions of the snapshot's `assetPositions` array, of each position's
string-encoded `unrealizedPnl` parsed as a decimal, a position with an
absent or unparsable field contributing zero; a snapshot whose
`assetPositions` is missing or not an array yields zero. -/
theorem C7_unrealized_sum (j : Json) :
    calculate_unrealized_from_state j =
      match (j.get "assetPositions").bind Json.as_array with
      | some positions =>
          (positions.map fun p =>
            ((((p.get "position").bind fun pos => pos.get "unrealizedPnl").bind
                Json.as_str).bind parseDecimal).getD 0).sum
      | none => 0 := by
  unfold calculate_unrealized_from_state
  cases h : (j.get "assetPositions").bind Json.as_array with
  | none => rfl
  | some positions => simp [foldl_add_filterMap]

/-! ## Claim C2 -/

/-- Claim C2: in every summary, each per-asset entry satisfies
net = realized + funding − fees, and globally total = realized + the
supplied unrealized figure and net = total + funding − fees. -/
theorem C2_summary_net_relations (wallet : String) (tl : Timeline) (u : Rat)
    (now1 now2 : Int) :
    (∀ p ∈ (calculate_summary wallet tl u now1 now2).by_asset,
        p.2.net_pnl = p.2.realized_pnl + p.2.funding_pnl - p.2.fees)
    ∧ (calculate_summary wallet tl u now1 now2).total_pnl
        = (calculate_summary wallet tl u now1 now2).realized_pnl + u
    ∧ (calculate_summary wallet tl u now1 now2).net_pnl
        = (calculate_summary wallet tl u now1 now2).total_pnl
          + (calculate_summary wallet tl u now1 now2).funding_pnl
          - (calculate_summary wallet tl u now1 now2).trading_fees := by
  refine ⟨?_, rfl, rfl⟩
  intro p hp
  rcases List.mem_map.mp hp with ⟨q, _, rfl⟩
  simp [finalizeAsset]

/-- The by-asset entry produced for "BTC" on the fixture timeline. -/
def pW : String × AssetPnl :=
  ("BTC", { coin := "BTC", realized_pnl := 1000, funding_pnl := -(5 / 2)
            fees := 10, net_pnl := 1975 / 2, trade_count := 2 })

unseal Rat.add Rat.sub Rat.mul Rat.inv in
/-- Witness for C2 at the fixture timeline. -/
theorem C2_witness :
    pW.2.net_pnl = pW.2.realized_pnl + pW.2.funding_pnl - pW.2.fees :=
  (C2_summary_net_relations "w" tlW 0 0 0).1 pW (by decide)

/-! ## Claim C8 -/

/-- Claim C8 counterexample: the two period bounds of an empty-timeline
summary come from two separate `Utc::now()` readings, so the period is not
always zero-width: with readings 5 and 7 the bounds differ. -/
theorem C8_counterexample :
    ¬ ((calculate_summary "w" emptyTimeline 0 5 7).period_start
        = (calculate_summary "w" emptyTimeline 0 5 7).period_end) := by
  decide

/-- Claim C8 (amended): for a timeline with no events, `calculate_summary`
returns all-zero realized, funding and fee totals, an empty per-asset
mapping, and period bounds defaulting to the respective clock readings
taken at call time (one reading per bound, so the two bounds need not be
equal). -/
theorem C8_empty_summary (wallet : String) (tl : Timeline) (u : Rat)
    (now1 now2 : Int) (hev : tl.events = []) (hfrom : tl.from_timestamp = none)
    (hto : tl.to_timestamp = none) :
    (calculate_summary wallet tl u now1 now2).realized_pnl = 0
    ∧ (calculate_summary wallet tl u now1 now2).funding_pnl = 0
    ∧ (calculate_summary wallet tl u now1 now2).trading_fees = 0
    ∧ (calculate_summary wallet tl u now1 now2).by_asset = []
    ∧ (calculate_summary wallet tl u now1 now2).period_start = now1
    ∧ (calculate_summary wallet tl u now1 now2).period_end = now2 := by
  simp [calculate_summary, hev, hfrom, hto]

/-- Witness for C8 (amended) at the empty timeline with clock readings 5
and 7. -/
theorem C8_witness :
    (calculate_summary "w" emptyTimeline 0 5 7).realized_pnl = 0
    ∧ (calculate_summary "w" emptyTimeline 0 5 7).funding_pnl = 0
    ∧ (calculate_summary "w" emptyTimeline 0 5 7).trading_fees = 0
    ∧ (calculate_summary "w" emptyTimeline 0 5 7).by_asset = []
    ∧ (calculate_summary "w" emptyTimeline 0 5 7).period_start = 5
    ∧ (calculate_summary "w" emptyTimeline 0 5 7).period_end = 7 :=
  C8_empty_summary "w" emptyTimeline 0 5 7 rfl rfl rfl

/-! ## Claim C1 -/

/-- C1's required-field condition as the spec states it: timestamp
convertible to a UTC instant and a non-empty coin string. -/
def fillRequiredStated (j : Json) : Prop :=
  (((j.get "time").bind Json.as_i64).bind from_timestamp_millis).isSome = true
  ∧ ((j.get "coin").bind Json.as_str).isSome = true
  ∧ (j.get "coin").bind Json.as_str ≠ some ""
  ∧ ((j.get "side").bind Json.as_str).isSome = true
  ∧ (((j.get "sz").bind Json.as_str).bind parseDecimal).isSome = true
  ∧ (((j.get "px").bind Json.as_str).bind parseDecimal).isSome = true

/-- C1's required-field condition as the code implements it: the timestamp
only needs to be an `i64` (unconvertible instants fall back to the epoch)
and the coin only needs to be a string (possibly empty). -/
def fillRequiredAmended (j : Json) : Prop :=
  ((j.get "time").bind Json.as_i64).isSome = true
  ∧ ((j.get "coin").bind Json.as_str).isSome = true
  ∧ ((j.get "side").bind Json.as_str).isSome = true
  ∧ (((j.get "sz").bind Json.as_str).bind parseDecimal).isSome = true
  ∧ (((j.get "px").bind Json.as_str).bind parseDecimal).isSome = true

/-- A raw fill with an empty coin string and a timestamp outside chrono's
representable range: the spec says it must be dropped, the code accepts
it. -/
def j0 : Json :=
  .obj [("time", .num 10000000000000000), ("coin", .str ""),
        ("side", .str "buy"), ("sz", .str "1"), ("px", .str "2")]

/-- Claim C1 counterexample: `parse_fill` accepts a record with an empty
coin and a non-convertible timestamp, which the claim as stated requires to
be dropped. -/
theorem C1_counterexample :
    (parse_fill j0).isSome = true ∧ ¬ fillRequiredStated j0 := by
  constructor
  · decide
  · intro h
    exact absurd h.2.2.1 (by decide)

/-- Claim C1 (amended): `parse_fill` returns `some` iff `time` parses as an
`i64`, `coin` and `side` parse as strings (the coin may be empty; a
timestamp not convertible to an instant falls back to the epoch), and `sz`
and `px` parse as decimal strings; on success the fee defaults to zero and
realized PnL / tx hash become `None` when absent or unparsable. -/
theorem C1_parse_fill_amended (j : Json) :
    ((parse_fill j).isSome = true ↔ fillRequiredAmended j)
    ∧ (∀ ts coin side sz px fee rpnl tx,
        parse_fill j = some (.fill ts coin side sz px fee rpnl tx) →
        fee = (((j.get "fee").bind Json.as_str).bind parseDecimal).getD 0
        ∧ rpnl = ((j.get "closedPnl").bind Json.as_str).bind parseDecimal
        ∧ tx = (j.get "hash").bind Json.as_str) := by
  simp only [parse_fill, fillRequiredAmended]
  cases h1 : (j.get "time").bind Json.as_i64 with
  | none => simp
  | some t =>
    cases h2 : (j.get "coin").bind Json.as_str with
    | none => simp
    | some coin0 =>
      cases h3 : (j.get "side").bind Json.as_str with
      | none => simp
      | some side0 =>
        cases h4 : ((j.get "sz").bind Json.as_str).bind parseDecimal with
        | none => simp
        | some sz0 =>
          cases h5 : ((j.get "px").bind Json.as_str).bind parseDecimal with
          | none => simp
          | some px0 =>
            refine ⟨by simp, ?_⟩
            intro ts coin side sz px fee rpnl tx h
            simp only [Option.map_some', Option.some.injEq,
              TimelineEvent.fill.injEq] at h
            exact ⟨h.2.2.2.2.2.1.symm, h.2.2.2.2.2.2.1.symm, h.2.2.2.2.2.2.2.symm⟩

/-- A fully populated raw fill record. -/
def jW : Json :=
  .obj [("time", .num 2000), ("coin", .str "BTC"), ("side", .str "sell"),
        ("sz", .str "1"), ("px", .str "51000"), ("fee", .str "5"),
        ("closedPnl", .str "1000"), ("hash", .str "0xabc")]

unseal Rat.add Rat.sub Rat.mul Rat.inv in
/-- Witness for C1 (amended) at a fully populated record. -/
theorem C1_witness :
    (5 : Rat) = (((jW.get "fee").bind Json.as_str).bind parseDecimal).getD 0
    ∧ some (1000 : Rat)
        = ((jW.get "closedPnl").bind Json.as_str).bind parseDecimal
    ∧ some "0xabc" = (jW.get "hash").bind Json.as_str :=
  (C1_parse_fill_amended jW).2 2000 "BTC" "sell" 1 51000 5 (some 1000)
    (some "0xabc") (by decide)

/-! ## Claim C3 -/

/-- Inserting with a key-based comparison preserves, for every key value,
the sublist of elements carrying that key (the element is placed before all
already-present elements of equal key, which is exactly what stability
requires when it is applied to the already-sorted tail). -/
theorem filter_orderedInsert_key {α κ : Type} [LinearOrder κ] [DecidableEq κ]
    (key : α → κ) [DecidableRel (keyLe key)] (a : α) (k : κ) :
    ∀ l : List α,
      (List.orderedInsert (keyLe key) a l).filter (fun e => decide (key e = k))
        = if key a = k
          then a :: l.filter (fun e => decide (key e = k))
          else l.filter (fun e => decide (key e = k))
  | [] => by
      by_cases h : key a = k <;> simp [List.orderedInsert, h]
  | b :: bs => by
      simp only [List.orderedInsert]
      by_cases hab : keyLe key a b
      · rw [if_pos hab]
        by_cases h1 : key a = k <;> by_cases h2 : key b = k <;>
          simp [List.filter_cons, h1, h2]
      · rw [if_neg hab]
        have hba : key b < key a := lt_of_not_le hab
        by_cases h1 : key a = k
        · have h2 : ¬ key b = k := by
            intro hh
            rw [h1] at hba
            rw [hh] at hba
            exact lt_irrefl k hba
          simp [List.filter_cons, h1, h2,
            filter_orderedInsert_key key a k bs]
        · simp [List.filter_cons, h1, filter_orderedInsert_key key a k bs]

/-- A key-based insertion sort is stable: for every key value, it preserves
the sublist of elements carrying that key. -/
theorem filter_insertionSort_key {α κ : Type} [LinearOrder κ] [DecidableEq κ]
    (key : α → κ) [DecidableRel (keyLe key)] (k : κ) :
    ∀ l : List α,
      (List.insertionSort (keyLe key) l).filter (fun e => decide (key e = k))
        = l.filter (fun e => decide (key e = k))
  | [] => rfl
  | a :: l => by
      simp only [List.insertionSort]
      rw [filter_orderedInsert_key key a k,
        filter_insertionSort_key key k l]
      by_cases h : key a = k <;> simp [List.filter_cons, h]

/-- Claim C3: `build_timeline` normalizes every fill then every funding
record, concatenates, and stable-sorts by timestamp: the result is pairwise
non-decreasing in timestamp, is a permutation of the concatenated
normalized lists, preserves for each timestamp value the concatenation
order of the events carrying it (so fill-derived events precede
funding-derived ones at equal timestamps), and the span equals the first
and last timestamp after sorting, both absent exactly when no event
survived normalization. -/
theorem C3_build_timeline_order (wallet : String) (fills funding : List Json) :
    (build_timeline wallet fills funding).events.Pairwise
      (fun a b => a.timestamp ≤ b.timestamp)
    ∧ (∀ k : Int,
        (build_timeline wallet fills funding).events.filter
            (fun e => decide (e.timestamp = k))
          = (fills.filterMap parse_fill
              ++ funding.filterMap parse_funding).filter
              (fun e => decide (e.timestamp = k)))
    ∧ List.Perm (build_timeline wallet fills funding).events
        (fills.filterMap parse_fill ++ funding.filterMap parse_funding)
    ∧ (build_timeline wallet fills funding).from_timestamp
        = ((build_timeline wallet fills funding).events.head?).map
            TimelineEvent.timestamp
    ∧ (build_timeline wallet fills funding).to_timestamp
        = ((build_timeline wallet fills funding).events.getLast?).map
            TimelineEvent.timestamp
    ∧ ((build_timeline wallet fills funding).from_timestamp = none
        ↔ fills.filterMap parse_fill ++ funding.filterMap parse_funding = [])
    ∧ ((build_timeline wallet fills funding).to_timestamp = none
        ↔ fills.filterMap parse_fill ++ funding.filterMap parse_funding = []) := by
  have hperm := List.perm_insertionSort (keyLe TimelineEvent.timestamp)
    (fills.filterMap parse_fill ++ funding.filterMap parse_funding)
  refine ⟨?_, ?_, hperm, rfl, rfl, ?_, ?_⟩
  · exact List.sorted_insertionSort (keyLe TimelineEvent.timestamp) _
  · intro k
    exact filter_insertionSort_key TimelineEvent.timestamp k _
  · constructor
    · intro h
      have h0 : List.insertionSort (keyLe TimelineEvent.timestamp)
          (fills.filterMap parse_fill ++ funding.filterMap parse_funding)
          = [] :=
        List.head?_eq_none_iff.mp (Option.map_eq_none'.mp h)
      rw [h0] at hperm
      exact hperm.symm.eq_nil
    · intro h
      simp [build_timeline, h]
  · constructor
    · intro h
      have h0 : List.insertionSort (keyLe TimelineEvent.timestamp)
          (fills.filterMap parse_fill ++ funding.filterMap parse_funding)
          = [] :=
        List.getLast?_eq_none_iff.mp (Option.map_eq_none'.mp h)
      rw [h0] at hperm
      exact hperm.symm.eq_nil
    · intro h
      simp [build_timeline, h]

/-! ## Claim C4 -/

/-- Sum of a numeric field over the entries of a by-asset map. -/
def sumOn (g : AssetPnl → Rat) (m : List (String × AssetPnl)) : Rat :=
  (m.map fun p => g p.2).sum

/-- `updateAsset` changes a field sum by exactly the change the mutation
makes on one entry. -/
theorem sumOn_updateAsset (g : AssetPnl → Rat) (c : String)
    (f : AssetPnl → AssetPnl) (d : Rat) (hf : ∀ a, g (f a) = g a + d)
    (h0 : g (newAssetPnl c) = 0) :
    ∀ m, sumOn g (updateAsset m c f) = sumOn g m + d
  | [] => by simp [updateAsset, sumOn, hf, h0]
  | (k, v) :: rest => by
      simp only [updateAsset]
      by_cases hk : k = c
      · rw [if_pos hk]
        simp only [sumOn, List.map_cons, List.sum_cons, hf]
        ring
      · rw [if_neg hk]
        simp only [sumOn, List.map_cons, List.sum_cons]
        have ih := sumOn_updateAsset g c f d hf h0 rest
        simp only [sumOn] at ih
        rw [ih]
        ring

/-- The invariant tying the three running totals of `calculate_summary` to
the per-asset sums. -/
def SumInv (acc : SummaryAcc) : Prop :=
  sumOn (fun a => a.realized_pnl) acc.by_asset = acc.realized_pnl
  ∧ sumOn (fun a => a.funding_pnl) acc.by_asset = acc.funding_pnl
  ∧ sumOn (fun a => a.fees) acc.by_asset = acc.trading_fees

theorem sumInv_step (acc : SummaryAcc) (e : TimelineEvent) (h : SumInv acc) :
    SumInv (summaryStep acc e) := by
  obtain ⟨hr, hf, hfe⟩ := h
  cases e with
  | fill ts coin side sz px fee rpnl tx =>
      cases rpnl with
      | none =>
          refine ⟨?_, ?_, ?_⟩ <;> simp only [summaryStep]
          · rw [sumOn_updateAsset (fun a => a.realized_pnl) coin
              (applyFillAsset fee none) 0 (fun a => (add_zero _).symm)
              rfl acc.by_asset, hr, add_zero]
          · rw [sumOn_updateAsset (fun a => a.funding_pnl) coin
              (applyFillAsset fee none) 0 (fun a => (add_zero _).symm)
              rfl acc.by_asset, hf, add_zero]
          · rw [sumOn_updateAsset (fun a => a.fees) coin
              (applyFillAsset fee none) fee (fun a => rfl)
              rfl acc.by_asset, hfe]
      | some pnl =>
          refine ⟨?_, ?_, ?_⟩ <;> simp only [summaryStep]
          · rw [sumOn_updateAsset (fun a => a.realized_pnl) coin
              (applyFillAsset fee (some pnl)) pnl (fun a => rfl)
              rfl acc.by_asset, hr]
          · rw [sumOn_updateAsset (fun a => a.funding_pnl) coin
              (applyFillAsset fee (some pnl)) 0 (fun a => (add_zero _).symm)
              rfl acc.by_asset, hf, add_zero]
          · rw [sumOn_updateAsset (fun a => a.fees) coin
              (applyFillAsset fee (some pnl)) fee (fun a => rfl)
              rfl acc.by_asset, hfe]
  | funding ts coin amount rate =>
      refine ⟨?_, ?_, ?_⟩ <;> simp only [summaryStep]
      · rw [sumOn_updateAsset (fun a => a.realized_pnl) coin
          (applyFundingAsset amount) 0 (fun a => (add_zero _).symm)
          rfl acc.by_asset, hr, add_zero]
      · rw [sumOn_updateAsset (fun a => a.funding_pnl) coin
          (applyFundingAsset amount) amount (fun a => rfl)
          rfl acc.by_asset, hf]
      · rw [sumOn_updateAsset (fun a => a.fees) coin
          (applyFundingAsset amount) 0 (fun a => (add_zero _).symm)
          rfl acc.by_asset, hfe, add_zero]
  | liquidation ts coin sz px loss => exact ⟨hr, hf, hfe⟩
  | deposit ts amount token => exact ⟨hr, hf, hfe⟩
  | withdrawal ts amount token => exact ⟨hr, hf, hfe⟩

theorem sumInv_foldl : ∀ (events : List TimelineEvent) (acc : SummaryAcc),
    SumInv acc → SumInv (events.foldl summaryStep acc)
  | [], _, h => h
  | e :: rest, acc, h => sumInv_foldl rest _ (sumInv_step acc e h)

/-- The final `net_pnl` pass does not change the other fields, hence not
their sums. -/
theorem sumOn_map_finalize (g : AssetPnl → Rat)
    (hg : ∀ a, g (finalizeAsset a) = g a) :
    ∀ m, sumOn g (m.map fun p => (p.1, finalizeAsset p.2)) = sumOn g m
  | [] => rfl
  | p :: rest => by
      simp only [sumOn, List.map_cons, List.sum_cons, hg]
      have ih := sumOn_map_finalize g hg rest
      simp only [sumOn] at ih
      rw [ih]

/-- Claim C4: in every summary, the per-asset realized, funding and fee
figures sum (exactly) to the global realized, funding and fee totals. -/
theorem C4_sum_decomposition (wallet : String) (tl : Timeline) (u : Rat)
    (now1 now2 : Int) :
    sumOn (fun a => a.realized_pnl)
        (calculate_summary wallet tl u now1 now2).by_asset
      = (calculate_summary wallet tl u now1 now2).realized_pnl
    ∧ sumOn (fun a => a.funding_pnl)
        (calculate_summary wallet tl u now1 now2).by_asset
      = (calculate_summary wallet tl u now1 now2).funding_pnl
    ∧ sumOn (fun a => a.fees)
        (calculate_summary wallet tl u now1 now2).by_asset
      = (calculate_summary wallet tl u now1 now2).trading_fees := by
  have h0 : SumInv { realized_pnl := 0, funding_pnl := 0, trading_fees := 0
                     by_asset := [] } := ⟨rfl, rfl, rfl⟩
  obtain ⟨hr, hf, hfe⟩ := sumInv_foldl tl.events _ h0
  simp only [calculate_summary]
  refine ⟨?_, ?_, ?_⟩
  · rw [sumOn_map_finalize (fun a => a.realized_pnl) (fun a => rfl)]
    exact hr
  · rw [sumOn_map_finalize (fun a => a.funding_pnl) (fun a => rfl)]
    exact hf
  · rw [sumOn_map_finalize (fun a => a.fees) (fun a => rfl)]
    exact hfe

/-! ## Claim C10 -/

/-- Does the event carry this coin as a `Fill`? -/
def isFillCoin : TimelineEvent → String → Bool
  | .fill _ coin _ _ _ _ _ _, c => decide (coin = c)
  | _, _ => false

/-- Does the event carry this coin as a `Funding`? -/
def isFundingCoin : TimelineEvent → String → Bool
  | .funding _ coin _ _, c => decide (coin = c)
  | _, _ => false

def hasFundingCoin (c : String) (events : List TimelineEvent) : Bool :=
  events.any fun e => isFundingCoin e c

/-- The funding amount an event contributes to coin `c`. -/
def fundingAmount (c : String) : TimelineEvent → Rat
  | .funding _ coin amount _ => if coin = c then amount else 0
  | _ => 0

/-- Sum of the funding amounts of coin `c`'s funding events. -/
def fundingSum (c : String) (events : List TimelineEvent) : Rat :=
  (events.map (fundingAmount c)).sum

/-- Lookup in the association-list model of the by-asset `HashMap`. -/
def lookupAsset : List (String × AssetPnl) → String → Option AssetPnl
  | [], _ => none
  | (k, v) :: rest, c => if k = c then some v else lookupAsset rest c

theorem lookupAsset_updateAsset_eq (c : String) (f : AssetPnl → AssetPnl) :
    ∀ m, lookupAsset (updateAsset m c f) c
      = some (f ((lookupAsset m c).getD (newAssetPnl c)))
  | [] => by simp [updateAsset, lookupAsset]
  | (k, v) :: rest => by
      by_cases hk : k = c
      · simp [updateAsset, lookupAsset, hk]
      · simp [updateAsset, lookupAsset, hk,
          lookupAsset_updateAsset_eq c f rest]

theorem lookupAsset_updateAsset_ne (c2 c : String) (f : AssetPnl → AssetPnl)
    (h : c2 ≠ c) :
    ∀ m, lookupAsset (updateAsset m c2 f) c = lookupAsset m c
  | [] => by simp [updateAsset, lookupAsset, h]
  | (k, v) :: rest => by
      by_cases hk : k = c2
      · subst hk
        simp [updateAsset, lookupAsset, h]
      · simp [updateAsset, lookupAsset, hk,
          lookupAsset_updateAsset_ne c2 c f h rest]

theorem lookupAsset_map_finalize :
    ∀ (m : List (String × AssetPnl)) (c : String),
      lookupAsset (m.map fun p => (p.1, finalizeAsset p.2)) c
        = (lookupAsset m c).map finalizeAsset
  | [], _ => rfl
  | (k, v) :: rest, c => by
      by_cases hk : k = c <;>
        simp [lookupAsset, hk, lookupAsset_map_finalize rest c]

/-- Running the summary loop over events none of which is a fill of coin
`c` leaves `c`'s entry with its realized/fees/count untouched and adds
exactly the funding sum; the entry is created on the first funding event of
`c`. -/
theorem lookup_foldl_funding (c : String) :
    ∀ (events : List TimelineEvent) (acc : SummaryAcc),
      (∀ e ∈ events, isFillCoin e c = false) →
      lookupAsset (List.foldl summaryStep acc events).by_asset c
        = match lookupAsset acc.by_asset c with
          | some a =>
              some { a with funding_pnl := a.funding_pnl + fundingSum c events }
          | none =>
              if hasFundingCoin c events
              then some { newAssetPnl c with funding_pnl := fundingSum c events }
              else none
  | [], acc, _ => by
      cases h : lookupAsset acc.by_asset c <;>
        simp [fundingSum, hasFundingCoin, h]
  | e :: rest, acc, hno => by
      have hnorest : ∀ x ∈ rest, isFillCoin x c = false := fun x hx =>
        hno x (List.mem_cons_of_mem e hx)
      cases e with
      | fill ts coin side sz px fee rpnl tx =>
          have hcoin : coin ≠ c := by
            simpa [isFillCoin] using hno _ (List.mem_cons_self _ rest)
          rw [List.foldl_cons,
            lookup_foldl_funding c rest (summaryStep acc (.fill ts coin side sz px fee rpnl tx)) hnorest]
          have hstep : lookupAsset
              (summaryStep acc (.fill ts coin side sz px fee rpnl tx)).by_asset c
              = lookupAsset acc.by_asset c := by
            simp only [summaryStep]
            exact lookupAsset_updateAsset_ne coin c _ hcoin acc.by_asset
          rw [hstep]
          cases hl : lookupAsset acc.by_asset c <;>
            simp [fundingSum, fundingAmount, hasFundingCoin, isFundingCoin]
      | funding ts coin amount rate =>
          by_cases hcoin : coin = c
          · subst hcoin
            rw [List.foldl_cons,
              lookup_foldl_funding coin rest (summaryStep acc (.funding ts coin amount rate)) hnorest]
            have hstep : lookupAsset
                (summaryStep acc (.funding ts coin amount rate)).by_asset coin
                = some (applyFundingAsset amount
                    ((lookupAsset acc.by_asset coin).getD (newAssetPnl coin))) := by
              simp only [summaryStep]
              exact lookupAsset_updateAsset_eq coin _ acc.by_asset
            rw [hstep]
            cases hl : lookupAsset acc.by_asset coin with
            | some a =>
                simp [applyFundingAsset, fundingSum, fundingAmount,
                  hasFundingCoin, isFundingCoin, add_assoc]
            | none =>
                simp [applyFundingAsset, newAssetPnl, fundingSum,
                  fundingAmount, hasFundingCoin, isFundingCoin, add_assoc]
          · rw [List.foldl_cons,
              lookup_foldl_funding c rest (summaryStep acc (.funding ts coin amount rate)) hnorest]
            have hstep : lookupAsset
                (summaryStep acc (.funding ts coin amount rate)).by_asset c
                = lookupAsset acc.by_asset c := by
              simp only [summaryStep]
              exact lookupAsset_updateAsset_ne coin c _ hcoin acc.by_asset
            rw [hstep]
            cases hl : lookupAsset acc.by_asset c <;>
              simp [fundingSum, fundingAmount, hasFundingCoin, isFundingCoin,
                hcoin]
      | liquidation ts coin sz px loss =>
          rw [List.foldl_cons,
            show summaryStep acc (.liquidation ts coin sz px loss) = acc from rfl,
            lookup_foldl_funding c rest acc hnorest]
          cases hl : lookupAsset acc.by_asset c <;>
            simp [fundingSum, fundingAmount, hasFundingCoin, isFundingCoin]
      | deposit ts amount token =>
          rw [List.foldl_cons,
            show summaryStep acc (.deposit ts amount token) = acc from rfl,
            lookup_foldl_funding c rest acc hnorest]
          cases hl : lookupAsset acc.by_asset c <;>
            simp [fundingSum, fundingAmount, hasFundingCoin, isFundingCoin]
      | withdrawal ts amount token =>
          rw [List.foldl_cons,
            show summaryStep acc (.withdrawal ts amount token) = acc from rfl,
            lookup_foldl_funding c rest acc hnorest]
          cases hl : lookupAsset acc.by_asset c <;>
            simp [fundingSum, fundingAmount, hasFundingCoin, isFundingCoin]

/-- Claim C10: a coin that appears in some funding event and in no fill
event gets a by-asset entry with trade count zero, zero realized PnL, zero
fees, and net PnL equal to the sum of that coin's funding amounts. -/
theorem C10_funding_only_coin (wallet : String) (tl : Timeline) (u : Rat)
    (now1 now2 : Int) (c : String)
    (hnofill : ∀ e ∈ tl.events, isFillCoin e c = false)
    (hfund : hasFundingCoin c tl.events = true) :
    lookupAsset (calculate_summary wallet tl u now1 now2).by_asset c
      = some { coin := c, realized_pnl := 0
               funding_pnl := fundingSum c tl.events, fees := 0
               net_pnl := fundingSum c tl.events, trade_count := 0 } := by
  have h1 := lookup_foldl_funding c tl.events
    { realized_pnl := 0, funding_pnl := 0, trading_fees := 0, by_asset := [] }
    hnofill
  simp only [lookupAsset, hfund, if_pos] at h1
  have h2 : lookupAsset (calculate_summary wallet tl u now1 now2).by_asset c
      = (lookupAsset (List.foldl summaryStep
          { realized_pnl := 0, funding_pnl := 0, trading_fees := 0
            by_asset := [] } tl.events).by_asset c).map finalizeAsset :=
    lookupAsset_map_finalize _ c
  rw [h2, h1]
  simp [finalizeAsset, newAssetPnl]

/-- A timeline whose only events are two ETH funding payments. -/
def tlFund : Timeline :=
  { wallet := "w"
    events := [.funding 1000 "ETH" 7 0, .funding 2000 "ETH" (-2) 0]
    from_timestamp := some 1000
    to_timestamp := some 2000 }

unseal Rat.add Rat.sub Rat.mul Rat.inv in
/-- Witness for C10: ETH appears only in funding events of `tlFund`. -/
theorem C10_witness :
    lookupAsset (calculate_summary "w" tlFund 0 0 0).by_asset "ETH"
      = some { coin := "ETH", realized_pnl := 0, funding_pnl := 5, fees := 0
               net_pnl := 5, trade_count := 0 } := by
  rw [C10_funding_only_coin "w" tlFund 0 0 0 "ETH" (by decide) rfl]
  decide

/-! ## Claim C5 -/

theorem addCumulative_map_pnl : ∀ (c : Rat) (l : List DailyPnl),
    (addCumulative c l).map DailyPnl.pnl = l.map DailyPnl.pnl
  | _, [] => rfl
  | c, d :: rest => by
      simp [addCumulative, addCumulative_map_pnl (c + d.pnl) rest]

theorem addCumulative_map_date : ∀ (c : Rat) (l : List DailyPnl),
    (addCumulative c l).map DailyPnl.date = l.map DailyPnl.date
  | _, [] => rfl
  | c, d :: rest => by
      simp [addCumulative, addCumulative_map_date (c + d.pnl) rest]

/-- Each cumulative entry is the previous cumulative plus the day's PnL. -/
theorem addCumulative_adjacent : ∀ (l : List DailyPnl) (c : Rat) (i : Nat)
    (h : i + 1 < (addCumulative c l).length),
    ((addCumulative c l).get ⟨i + 1, h⟩).cumulative_pnl
      = ((addCumulative c l).get ⟨i, Nat.lt_of_succ_lt h⟩).cumulative_pnl
        + ((addCumulative c l).get ⟨i + 1, h⟩).pnl
  | [], c, i, h => by simp [addCumulative] at h
  | d :: rest, c, 0, h => by
      cases rest with
      | nil => simp [addCumulative] at h
      | cons e rest2 => simp [addCumulative]
  | d :: rest, c, i + 1, h => by
      have h2 : i + 1 < (addCumulative (c + d.pnl) rest).length := by
        simpa [addCumulative] using h
      simpa [addCumulative] using
        addCumulative_adjacent rest (c + d.pnl) i h2

/-- The first cumulative entry is the carried-in total plus its own PnL. -/
theorem addCumulative_head (c : Rat) (l : List DailyPnl)
    (h : 0 < (addCumulative c l).length) :
    ((addCumulative c l).get ⟨0, h⟩).cumulative_pnl
      = c + ((addCumulative c l).get ⟨0, h⟩).pnl := by
  cases l with
  | nil => simp [addCumulative] at h
  | cons d rest => simp [addCumulative]

/-- The last cumulative entry is the carried-in total plus the sum of all
daily PnLs. -/
theorem addCumulative_getLast? :
    ∀ (l : List DailyPnl) (c : Rat) (x : DailyPnl),
      (addCumulative c l).getLast? = some x →
      x.cumulative_pnl = c + (l.map DailyPnl.pnl).sum
  | [], _, x, h => by simp [addCumulative] at h
  | [d], c, x, h => by
      simp only [addCumulative, List.getLast?_singleton,
        Option.some.injEq] at h
      subst h
      simp
  | d :: e :: rest, c, x, h => by
      simp only [addCumulative, List.getLast?_cons_cons] at h
      have := addCumulative_getLast? (e :: rest) (c + d.pnl) x
        (by simpa [addCumulative] using h)
      rw [this]
      simp [add_assoc]

/-- Claim C5: the daily series is sorted ascending by date string, each
entry's cumulative equals the previous cumulative plus its own PnL, the
first entry's cumulative is its own PnL, and the last entry's cumulative is
the sum of all daily PnLs. -/
theorem C5_daily_cumulative (tl : Timeline) :
    ((calculate_daily tl).map DailyPnl.date).Pairwise (fun a b => a ≤ b)
    ∧ (∀ (i : Nat) (h : i + 1 < (calculate_daily tl).length),
        ((calculate_daily tl).get ⟨i + 1, h⟩).cumulative_pnl
          = ((calculate_daily tl).get ⟨i, Nat.lt_of_succ_lt h⟩).cumulative_pnl
            + ((calculate_daily tl).get ⟨i + 1, h⟩).pnl)
    ∧ (∀ h0 : 0 < (calculate_daily tl).length,
        ((calculate_daily tl).get ⟨0, h0⟩).cumulative_pnl
          = ((calculate_daily tl).get ⟨0, h0⟩).pnl)
    ∧ (∀ x : DailyPnl, (calculate_daily tl).getLast? = some x →
        x.cumulative_pnl = ((calculate_daily tl).map DailyPnl.pnl).sum) := by
  refine ⟨?_, ?_, ?_, ?_⟩
  · show ((addCumulative 0 (List.insertionSort (keyLe DailyPnl.date)
        ((dailyMapOf tl.events).map fun p =>
          { date := p.1, pnl := p.2, cumulative_pnl := (0 : Rat) }))).map
        DailyPnl.date).Pairwise (fun a b => a ≤ b)
    rw [addCumulative_map_date, List.pairwise_map]
    exact List.sorted_insertionSort (keyLe DailyPnl.date) _
  · intro i h
    exact addCumulative_adjacent _ 0 i h
  · intro h0
    simpa using addCumulative_head 0 _ h0
  · intro x hx
    have h1 := addCumulative_getLast? _ 0 x hx
    rw [zero_add] at h1
    rw [h1]
    have h2 : (calculate_daily tl).map DailyPnl.pnl
        = (List.insertionSort (keyLe DailyPnl.date)
            ((dailyMapOf tl.events).map fun p =>
              { date := p.1, pnl := p.2, cumulative_pnl := (0 : Rat) })).map
            DailyPnl.pnl :=
      addCumulative_map_pnl 0 _
    rw [h2]

/-- A timeline with events on two consecutive UTC dates. -/
def tlDays : Timeline :=
  { wallet := "w"
    events := [.fill 0 "A" "b" 1 1 1 none none, .funding 86400000 "A" 3 0]
    from_timestamp := some 0
    to_timestamp := some 86400000 }

unseal Rat.add Rat.sub Rat.mul Rat.inv in
/-- Witness for C5: the two-day fixture satisfies the adjacent, head and
last cumulative laws. -/
theorem C5_witness :
    (((calculate_daily tlDays).get ⟨1, by decide⟩).cumulative_pnl
      = ((calculate_daily tlDays).get ⟨0, by decide⟩).cumulative_pnl
        + ((calculate_daily tlDays).get ⟨1, by decide⟩).pnl)
    ∧ (((calculate_daily tlDays).get ⟨0, by decide⟩).cumulative_pnl
        = ((calculate_daily tlDays).get ⟨0, by decide⟩).pnl)
    ∧ ({ date := "1970-01-02", pnl := 3, cumulative_pnl := 2
         : DailyPnl }).cumulative_pnl
        = ((calculate_daily tlDays).map DailyPnl.pnl).sum :=
  ⟨(C5_daily_cumulative tlDays).2.1 0 (by decide),
   (C5_daily_cumulative tlDays).2.2.1 (by decide),
   (C5_daily_cumulative tlDays).2.2.2
     { date := "1970-01-02", pnl := 3, cumulative_pnl := 2 } (by decide)⟩

/-! ## Claim C6 -/

/-- Lookup in the association-list model of the daily `HashMap`. -/
def lookupRat : List (String × Rat) → String → Option Rat
  | [], _ => none
  | (k, v) :: rest, d => if k = d then some v else lookupRat rest d

/-- The contribution of an event to date `d` (zero for other dates). -/
def contribAt (d : String) (e : TimelineEvent) : Rat :=
  if dateOf e = d then dailyContribution e else 0

def contribSum (d : String) (events : List TimelineEvent) : Rat :=
  (events.map (contribAt d)).sum

def hasDate (d : String) (events : List TimelineEvent) : Bool :=
  events.any fun e => decide (dateOf e = d)

theorem contribSum_eq_filter (d : String) :
    ∀ events, contribSum d events
      = ((events.filter fun e => decide (dateOf e = d)).map
          dailyContribution).sum
  | [] => rfl
  | e :: rest => by
      have ih := contribSum_eq_filter d rest
      simp only [contribSum] at ih ⊢
      by_cases hd : dateOf e = d <;>
        simp [contribAt, List.filter_cons, hd, ih]

theorem lookupRat_updateDaily_eq (d : String) (v : Rat) :
    ∀ m, lookupRat (updateDaily m d v) d
      = some ((lookupRat m d).getD 0 + v)
  | [] => by simp [updateDaily, lookupRat]
  | (k, x) :: rest => by
      by_cases hk : k = d
      · simp [updateDaily, lookupRat, hk]
      · simp [updateDaily, lookupRat, hk, lookupRat_updateDaily_eq d v rest]

theorem lookupRat_updateDaily_ne (d2 d : String) (v : Rat) (h : d2 ≠ d) :
    ∀ m, lookupRat (updateDaily m d2 v) d = lookupRat m d
  | [] => by simp [updateDaily, lookupRat, h]
  | (k, x) :: rest => by
      by_cases hk : k = d2
      · subst hk
        simp [updateDaily, lookupRat, h]
      · simp [updateDaily, lookupRat, hk,
          lookupRat_updateDaily_ne d2 d v h rest]

/-- Folding the daily loop: the entry of date `d` ends up holding exactly
the sum of the contributions of the events falling on `d`, and exists iff
some event falls on `d`. -/
theorem lookupRat_dailyFold (d : String) :
    ∀ (events : List TimelineEvent) (m : List (String × Rat)),
      lookupRat (List.foldl dailyStep m events) d
        = match lookupRat m d with
          | some x => some (x + contribSum d events)
          | none =>
              if hasDate d events then some (contribSum d events) else none
  | [], m => by
      cases h : lookupRat m d <;> simp [contribSum, hasDate, h]
  | e :: rest, m => by
      rw [List.foldl_cons, lookupRat_dailyFold d rest (dailyStep m e)]
      by_cases hd : dateOf e = d
      · have hstep : lookupRat (dailyStep m e) d
            = some ((lookupRat m d).getD 0 + dailyContribution e) := by
          show lookupRat (updateDaily m (dateOf e) (dailyContribution e)) d
            = _
          rw [hd]
          exact lookupRat_updateDaily_eq d _ m
        rw [hstep]
        cases hl : lookupRat m d with
        | some x =>
            simp [contribSum, contribAt, hasDate, hd, add_assoc]
        | none =>
            simp [contribSum, contribAt, hasDate, hd]
      · have hstep : lookupRat (dailyStep m e) d = lookupRat m d :=
          lookupRat_updateDaily_ne (dateOf e) d _ hd m
        rw [hstep]
        cases hl : lookupRat m d with
        | some x => simp [contribSum, contribAt, hasDate, hd]
        | none => simp [contribSum, contribAt, hasDate, hd]

def keysOfDaily (m : List (String × Rat)) : List String := m.map Prod.fst

theorem lookupRat_isSome_iff :
    ∀ (m : List (String × Rat)) (d : String),
      (lookupRat m d).isSome = true ↔ d ∈ keysOfDaily m
  | [], d => by simp [lookupRat, keysOfDaily]
  | (k, x) :: rest, d => by
      by_cases hk : k = d
      · subst hk
        simp [lookupRat, keysOfDaily]
      · simp [lookupRat, keysOfDaily, hk, lookupRat_isSome_iff rest d,
          Ne.symm hk]

theorem keysOf_updateDaily (d : String) (v : Rat) :
    ∀ m, keysOfDaily (updateDaily m d v)
      = if d ∈ keysOfDaily m then keysOfDaily m else keysOfDaily m ++ [d]
  | [] => by simp [updateDaily, keysOfDaily]
  | (k, x) :: rest => by
      by_cases hk : k = d
      · subst hk
        simp [updateDaily, keysOfDaily]
      · have hne : ¬ (d = k) := fun hdk => hk hdk.symm
        have ih := keysOf_updateDaily d v rest
        simp only [updateDaily, if_neg hk, keysOfDaily, List.map_cons] at ih ⊢
        rw [ih]
        by_cases hm : d ∈ List.map Prod.fst rest
        · simp [hm, hne]
        · simp [hm, hne]

theorem nodup_keys_updateDaily (d : String) (v : Rat)
    (m : List (String × Rat)) (h : (keysOfDaily m).Nodup) :
    (keysOfDaily (updateDaily m d v)).Nodup := by
  rw [keysOf_updateDaily]
  by_cases hm : d ∈ keysOfDaily m
  · simp [hm, h]
  · rw [if_neg hm]
    exact h.append (List.nodup_singleton d)
      (List.disjoint_singleton.mpr hm)

theorem nodup_keys_dailyFold :
    ∀ (events : List TimelineEvent) (m : List (String × Rat)),
      (keysOfDaily m).Nodup →
      (keysOfDaily (List.foldl dailyStep m events)).Nodup
  | [], _, h => h
  | _ :: rest, m, h =>
      nodup_keys_dailyFold rest _ (nodup_keys_updateDaily _ _ m h)

theorem lookupRat_of_mem :
    ∀ (m : List (String × Rat)) (d : String) (v : Rat),
      (keysOfDaily m).Nodup → (d, v) ∈ m → lookupRat m d = some v
  | [], _, _, _, h => by cases h
  | (k, x) :: rest, d, v, hn, h => by
      rcases List.mem_cons.mp h with h1 | h1
      · cases h1
        simp [lookupRat]
      · have hk : k ≠ d := by
          intro he
          subst he
          have hmem : k ∈ keysOfDaily rest := by
            have := List.mem_map_of_mem Prod.fst h1
            simpa [keysOfDaily] using this
          exact (List.nodup_cons.mp hn).1 hmem
        simp only [lookupRat, if_neg hk]
        exact lookupRat_of_mem rest d v (List.nodup_cons.mp hn).2 h1

theorem mem_of_lookupRat :
    ∀ (m : List (String × Rat)) (d : String) (v : Rat),
      lookupRat m d = some v → (d, v) ∈ m
  | [], _, _, h => by simp [lookupRat] at h
  | (k, x) :: rest, d, v, h => by
      by_cases hk : k = d
      · subst hk
        have hx : x = v := by simpa [lookupRat] using h
        subst hx
        exact List.mem_cons_self _ _
      · simp only [lookupRat, if_neg hk] at h
        exact List.mem_cons_of_mem _ (mem_of_lookupRat rest d v h)

/-- The `(date, pnl)` pairs of the daily entries. -/
def pairsOfDaily (l : List DailyPnl) : List (String × Rat) :=
  l.map fun p => (p.date, p.pnl)

theorem pairsOfDaily_addCumulative :
    ∀ (c : Rat) (l : List DailyPnl),
      pairsOfDaily (addCumulative c l) = pairsOfDaily l
  | _, [] => rfl
  | c, d :: rest => by
      have ih := pairsOfDaily_addCumulative (c + d.pnl) rest
      simp only [pairsOfDaily] at ih ⊢
      simp [addCumulative, ih]

theorem pairsOfDaily_calculate_daily_perm (tl : Timeline) :
    List.Perm (pairsOfDaily (calculate_daily tl)) (dailyMapOf tl.events) := by
  show List.Perm (pairsOfDaily (addCumulative 0
    (List.insertionSort (keyLe DailyPnl.date)
      ((dailyMapOf tl.events).map fun p =>
        { date := p.1, pnl := p.2, cumulative_pnl := (0 : Rat) })))) _
  rw [pairsOfDaily_addCumulative]
  have hp := (List.perm_insertionSort (keyLe DailyPnl.date)
    ((dailyMapOf tl.events).map fun p =>
      { date := p.1, pnl := p.2, cumulative_pnl := (0 : Rat) })).map
    fun p : DailyPnl => (p.date, p.pnl)
  rw [List.map_map] at hp
  have hid : ((fun p : DailyPnl => (p.date, p.pnl)) ∘ fun p : String × Rat =>
      ({ date := p.1, pnl := p.2, cumulative_pnl := (0 : Rat) } : DailyPnl))
      = id := rfl
  rw [hid, List.map_id] at hp
  exact hp

/-- Claim C6: `calculate_daily` buckets every event by its UTC calendar
date; exactly the dates with at least one event get an entry; each entry's
PnL is the sum of the contributions (`dailyContribution`) of the events of
that date; a timeline with zero events yields an empty sequence. -/
theorem C6_daily_buckets (tl : Timeline) (d : String) :
    (tl.events = [] → calculate_daily tl = [])
    ∧ ((∃ p ∈ calculate_daily tl, p.date = d)
        ↔ (∃ e ∈ tl.events, dateOf e = d))
    ∧ (∀ p ∈ calculate_daily tl,
        p.pnl = ((tl.events.filter fun e => decide (dateOf e = p.date)).map
          dailyContribution).sum) := by
  refine ⟨?_, ?_, ?_⟩
  · intro h
    simp [calculate_daily, dailyMapOf, h, addCumulative]
  · constructor
    · rintro ⟨p, hp, hpd⟩
      have hpair : (p.date, p.pnl) ∈ dailyMapOf tl.events :=
        (pairsOfDaily_calculate_daily_perm tl).mem_iff.mp
          (List.mem_map_of_mem (fun q : DailyPnl => (q.date, q.pnl)) hp)
      have hkey : p.date ∈ keysOfDaily (dailyMapOf tl.events) := by
        have := List.mem_map_of_mem Prod.fst hpair
        simpa [keysOfDaily] using this
      have hsome := (lookupRat_isSome_iff (dailyMapOf tl.events) p.date).mpr
        hkey
      have hfold := lookupRat_dailyFold p.date tl.events []
      rw [show dailyMapOf tl.events = List.foldl dailyStep [] tl.events
        from rfl] at hsome
      simp only [lookupRat] at hfold
      rw [hfold] at hsome
      by_cases hhas : hasDate p.date tl.events
      · rcases List.any_eq_true.mp hhas with ⟨e, he, hde⟩
        exact ⟨e, he, hpd ▸ of_decide_eq_true hde⟩
      · rw [if_neg hhas] at hsome
        simp at hsome
    · rintro ⟨e, he, hde⟩
      have hhas : hasDate d tl.events = true :=
        List.any_eq_true.mpr ⟨e, he, by simp [hde]⟩
      have hfold := lookupRat_dailyFold d tl.events []
      simp only [lookupRat] at hfold
      rw [if_pos hhas] at hfold
      have hmem : (d, contribSum d tl.events) ∈ dailyMapOf tl.events :=
        mem_of_lookupRat _ _ _ hfold
      have hmem2 : (d, contribSum d tl.events)
          ∈ pairsOfDaily (calculate_daily tl) :=
        (pairsOfDaily_calculate_daily_perm tl).mem_iff.mpr hmem
      rcases List.mem_map.mp hmem2 with ⟨p, hp, hpe⟩
      exact ⟨p, hp, congrArg Prod.fst hpe⟩
  · intro p hp
    have hpair : (p.date, p.pnl) ∈ dailyMapOf tl.events :=
      (pairsOfDaily_calculate_daily_perm tl).mem_iff.mp
        (List.mem_map_of_mem (fun q : DailyPnl => (q.date, q.pnl)) hp)
    have hnodup : (keysOfDaily (dailyMapOf tl.events)).Nodup :=
      nodup_keys_dailyFold tl.events [] List.nodup_nil
    have hlook : lookupRat (dailyMapOf tl.events) p.date = some p.pnl :=
      lookupRat_of_mem _ _ _ hnodup hpair
    have hfold := lookupRat_dailyFold p.date tl.events []
    simp only [lookupRat] at hfold
    rw [show List.foldl dailyStep [] tl.events = dailyMapOf tl.events
      from rfl, hlook] at hfold
    by_cases hhas : hasDate p.date tl.events
    · rw [if_pos hhas] at hfold
      have := Option.some.inj hfold
      rw [this, contribSum_eq_filter]
    · rw [if_neg hhas] at hfold
      simp at hfold

unseal Rat.add Rat.sub Rat.mul Rat.inv in
/-- Witness for C6: the empty timeline yields an empty series, and the
second day's entry of the two-day fixture holds the sum of that day's
contributions. -/
theorem C6_witness :
    calculate_daily emptyTimeline = []
    ∧ ({ date := "1970-01-02", pnl := 3, cumulative_pnl := 2
         : DailyPnl }).pnl
        = ((tlDays.events.filter fun e =>
            decide (dateOf e = "1970-01-02")).map dailyContribution).sum :=
  ⟨(C6_daily_buckets emptyTimeline "x").1 rfl,
   (C6_daily_buckets tlDays "1970-01-02").2.2
     { date := "1970-01-02", pnl := 3, cumulative_pnl := 2 } (by decide)⟩

end GokerLedger
